import Mathlib

/-!
Verification of the class-diagram evaluation tool (mainv2.0.py).

Strings are modelled as lists of characters; Python `dict` records are
association lists; Python sets are `Finset`s; floats are rationals
(the claims below only involve exactly representable values, so no
floating-point rounding is relevant to any statement).
-/

namespace UML

abbrev Str := List Char

abbrev Rec := List (Str × Str)

def Rec.get (r : Rec) (k : Str) : Option Str := List.lookup k r

def wsB (c : Char) : Bool := c.isWhitespace

def trim (l : Str) : Str := ((l.dropWhile wsB).reverse.dropWhile wsB).reverse

def visChar (c : Char) : Bool := c = '+' || c = '-' || c = '#' || c = '~'

def splitVis (l : Str) : Str × Str :=
  match l with
  | [] => (['+'], [])
  | c :: rest => if visChar c then ([c], trim rest) else (['+'], c :: rest)

def rfindI (c : Char) : Str → Int
  | [] => -1
  | x :: xs =>
    let r := rfindI c xs
    if 0 ≤ r then r + 1 else if x = c then 0 else -1

def strLt : Str → Str → Bool
  | [], [] => false
  | [], _ :: _ => true
  | _ :: _, [] => false
  | a :: as, b :: bs => if a < b then true else if b < a then false else strLt as bs

def splitComma : Str → List Str
  | [] => [[]]
  | c :: rest =>
    match splitComma rest with
    | [] => if c = ',' then [[], []] else [[c]]
    | h :: t => if c = ',' then [] :: h :: t else (c :: h) :: t

def normalize_multiplicity (mult : Str) : Str :=
  if mult = [] then ("1..1".toList)
  else
    let m := trim mult
    if m = ("1".toList) then ("1..1".toList)
    else if m = ("*".toList) ∨ m = ("..*".toList) then ("0..*".toList)
    else if m = ("1..".toList) then ("1..*".toList)
    else m

def parse_attribute (attr0 : Str) : Str × Str × Str × Str :=
  let attr1 := trim attr0
  let vp := splitVis attr1
  let vis := vp.1
  let attr2 := vp.2
  let mp : Str × Str :=
    if '[' ∈ attr2 ∧ attr2.getLast? = some ']' then
      let idx := (rfindI '[' attr2).toNat
      (normalize_multiplicity ((attr2.drop (idx + 1)).dropLast), trim (attr2.take idx))
    else (("1".toList), attr2)
  let mult := mp.1
  let attr3 := mp.2
  if ':' ∈ attr3 then
    (vis, trim (attr3.takeWhile (fun c => c ≠ ':')),
      trim ((attr3.dropWhile (fun c => c ≠ ':')).tail), mult)
  else (vis, attr3, [], mult)

/-- The return-type detection step of `parse_operation`: applied to the
string left after visibility stripping, it yields the return type and the
remaining operation text. -/
def retSplit (op2 : Str) : Str × Str :=
  if ':' ∈ op2 ∧ op2.count '(' = op2.count ')' then
    let lc := rfindI ':' op2
    let lp := rfindI ')' op2
    if lp < lc then (trim (op2.drop (lc.toNat + 1)), trim (op2.take lc.toNat))
    else (("void".toList), op2)
  else (("void".toList), op2)

def parse_operation (op0 : Str) : Str × Str × List (Str × Str) × Str :=
  let op1 := trim op0
  let vp := splitVis op1
  let vis := vp.1
  let op2 := vp.2
  let rs := retSplit op2
  let ret := rs.1
  let op3 := rs.2
  if '(' ∉ op3 then (vis, op3, [], ret)
  else if ')' ∉ op3 then (vis, op3, [], ret)
  else
    let name := trim (op3.takeWhile (fun c => c ≠ '('))
    let rest := (op3.dropWhile (fun c => c ≠ '(')).tail
    let params_str := rest.takeWhile (fun c => c ≠ ')')
    let params : List (Str × Str) :=
      if trim params_str = [] then []
      else (splitComma params_str).foldr (fun piece acc =>
        let q := trim piece
        if q = [] then acc
        else if ':' ∈ q then
          (trim (q.takeWhile (fun c => c ≠ ':')),
            trim ((q.dropWhile (fun c => c ≠ ':')).tail)) :: acc
        else (q, ([] : Str)) :: acc) []
    (vis, name, params, ret)

def parse_association (assoc : Rec) : Option ((Str × Str) × Str × Str) :=
  match Rec.get assoc ("source".toList), Rec.get assoc ("target".toList) with
  | some src, some tgt =>
    let mult_src := normalize_multiplicity ((Rec.get assoc ("multiplicity_source".toList)).getD [])
    let mult_tgt := normalize_multiplicity ((Rec.get assoc ("multiplicity_target".toList)).getD [])
    let key : Str × Str :=
      if Rec.get assoc ("direction".toList) = some ("bidirectional".toList) then
        (if strLt tgt src then (tgt, src) else (src, tgt))
      else (src, tgt)
    some (key, mult_tgt, mult_src)
  | _, _ => none

inductive RelKey where
  | assocK : Str × Str → Str → Str → RelKey
  | quadK : Str → Str → Str → Str → RelKey
  | pairK : Str → Str → RelKey
deriving DecidableEq

def relTypes : List String :=
  ["association", "composition", "aggregation", "dependency", "inheritance", "realization"]

def requiredFields (rt : String) : List Str :=
  if rt = "association" then [("source".toList), ("target".toList)]
  else if rt = "composition" ∨ rt = "aggregation" then [("whole".toList), ("part".toList)]
  else if rt = "dependency" then [("dependent".toList), ("supplier".toList)]
  else if rt = "inheritance" then [("parent".toList), ("child".toList)]
  else if rt = "realization" then [("interface".toList), ("implementation".toList)]
  else []

/-- One step of `process_relationships`: `some (some k)` means a key was
extracted, `some none` means the record was skipped with a warning, and
`none` means the relationship type is not one the loop handles.  The
function is total, mirroring the catch-all `except` in the source. -/
def relStep (rt : String) (rel : Rec) : Option (Option RelKey) :=
  if rt = "association" then
    match Rec.get rel ("source".toList), Rec.get rel ("target".toList) with
    | some _, some _ =>
      match parse_association rel with
      | some (k, m1, m2) => some (some (RelKey.assocK k m1 m2))
      | none => some none
    | _, _ => some none
  else if rt = "composition" ∨ rt = "aggregation" then
    match Rec.get rel ("whole".toList), Rec.get rel ("part".toList) with
    | some w, some p =>
      some (some (RelKey.quadK w p
        (normalize_multiplicity ((Rec.get rel ("multiplicity_whole".toList)).getD ("1".toList)))
        (normalize_multiplicity ((Rec.get rel ("multiplicity_part".toList)).getD ("1".toList)))))
    | _, _ => some none
  else if rt = "dependency" then
    match Rec.get rel ("dependent".toList), Rec.get rel ("supplier".toList) with
    | some d, some s => some (some (RelKey.pairK d s))
    | _, _ => some none
  else if rt = "inheritance" then
    match Rec.get rel ("parent".toList), Rec.get rel ("child".toList) with
    | some pa, some c => some (some (RelKey.pairK pa c))
    | _, _ => some none
  else if rt = "realization" then
    match Rec.get rel ("interface".toList), Rec.get rel ("implementation".toList) with
    | some i, some im => some (some (RelKey.pairK i im))
    | _, _ => some none
  else none

/-- The per-type extraction loop: returns the set of extracted keys together
with the list of indices of records skipped with a warning.  The running
index mirrors Python's `enumerate`.  Totality of the fold models the body's
catch-all `except`: no record can abort the batch. -/
def process_relationships (relList : List Rec) (rt : String) : Finset RelKey × List Nat :=
  (relList.foldl (fun acc rel =>
    match relStep rt rel with
    | some (some k) => ((insert k acc.1.1, acc.1.2), acc.2 + 1)
    | some none => ((acc.1.1, acc.1.2 ++ [acc.2]), acc.2 + 1)
    | none => ((acc.1.1, acc.1.2), acc.2 + 1)) ((∅, []), 0)).1

abbrev AttrT := Str × Str × Str × Str

abbrev OpT := Str × Str × List (Str × Str) × Str

instance : DecidableEq AttrT := instDecidableEqProd

instance : DecidableEq OpT := instDecidableEqProd

structure Element where
  etype : String
  attrs : Finset AttrT
  ops : Finset OpT
deriving DecidableEq

instance : Nonempty Element := ⟨⟨"", ∅, ∅⟩⟩

/-- Insertion into a name-keyed map, mirroring Python `dict` assignment:
an existing key keeps its position and gets the new value, a new key is
appended at the end. -/
def dinsert : List (Str × Element) → Str → Element → List (Str × Element)
  | [], k, v => [(k, v)]
  | (k', v') :: rest, k, v =>
    if k' = k then (k', v) :: rest else (k', v') :: dinsert rest k v

structure ClassRec where
  cname : Str
  attributes : List Str
  operations : List Str
deriving DecidableEq

structure EnumRec where
  ename : Str
  literals : List Str
deriving DecidableEq

structure Rels where
  association : List Rec
  composition : List Rec
  aggregation : List Rec
  dependency : List Rec
  inheritance : List Rec
  realization : List Rec

def Rels.get (r : Rels) (rt : String) : List Rec :=
  if rt = "association" then r.association
  else if rt = "composition" then r.composition
  else if rt = "aggregation" then r.aggregation
  else if rt = "dependency" then r.dependency
  else if rt = "inheritance" then r.inheritance
  else if rt = "realization" then r.realization
  else []

structure Doc where
  classes : List ClassRec
  enumerations : List EnumRec
  relationships : Rels

def classElem (c : ClassRec) : Element :=
  ⟨"class", (c.attributes.map parse_attribute).toFinset, (c.operations.map parse_operation).toFinset⟩

def enumElem (e : EnumRec) : Element :=
  ⟨"enum", (e.literals.map (fun lit => ((['+'] : Str), lit, ([] : Str), ("1".toList)))).toFinset, ∅⟩

/-- The two `dict`-building loops of `compute_metrics`: classes first,
then enumerations into the same name-keyed map. -/
def buildElements (d : Doc) : List (Str × Element) :=
  let m0 := d.classes.foldl (fun m c => dinsert m c.cname (classElem c)) []
  d.enumerations.foldl (fun m e => dinsert m e.ename (enumElem e)) m0

def elemMatch (pe : List (Str × Element)) (q : Str × Element) : Bool :=
  match List.lookup q.1 pe with
  | some e => decide (q.2.attrs = e.attrs ∧ q.2.ops = e.ops)
  | none => false

def matchedNames (te pe : List (Str × Element)) : List Str :=
  (te.filter (elemMatch pe)).map Prod.fst

def sinsert (x : Str) : List Str → List Str
  | [] => [x]
  | y :: ys => if strLt x y then x :: y :: ys else y :: sinsert x ys

def sortStr : List Str → List Str
  | [] => []
  | x :: xs => sinsert x (sortStr xs)

/-- The `{precision, recall, f1}` triple.  The second field carries a
trailing underscore only because `recall` is already a Mathlib command
name; it models the `"recall"` entry of the source's result dict. -/
structure PRF where
  precision : ℚ
  recall_ : ℚ
  f1 : ℚ
deriving DecidableEq

/-- `round(x, 4)`: round to four decimal places.  (Python rounds exact
decimal half-ties to even; no claim below involves such a tie, so
half-up rounding is an equivalent model on every value that occurs.) -/
def round4 (q : ℚ) : ℚ := ((⌊q * 10000 + 1 / 2⌋ : ℤ) : ℚ) / 10000

def raw_precision (pred_n match_n : ℕ) : ℚ :=
  if 0 < pred_n then (match_n : ℚ) / (pred_n : ℚ) else 0

def raw_recall (true_n match_n : ℕ) : ℚ :=
  if 0 < true_n then (match_n : ℚ) / (true_n : ℚ) else 0

def calc_prf (true_n pred_n match_n : ℕ) : PRF :=
  let p := raw_precision pred_n match_n
  let r := raw_recall true_n match_n
  let f1 := if 0 < p + r then 2 * p * r / (p + r) else 0
  ⟨round4 p, round4 r, round4 f1⟩

structure Counts where
  true_c : ℕ
  pred_c : ℕ
  match_c : ℕ
  true_r : ℕ
  pred_r : ℕ
  match_r : ℕ

structure MetricsResult where
  class_metrics : PRF
  relationship_metrics : PRF
  overall_metrics : PRF
  counts : Counts
  matched : List Str
  mismatched_in_ground_truth : List Str
  extra_in_prediction : List Str

def compute_metrics (t p : Doc) : MetricsResult :=
  let te := buildElements t
  let pe := buildElements p
  let mnames := matchedNames te pe
  let trs := fun rt => (process_relationships (t.relationships.get rt) rt).1
  let prs := fun rt => (process_relationships (p.relationships.get rt) rt).1
  let true_c := te.length
  let pred_c := pe.length
  let match_c := mnames.length
  let true_r := (relTypes.map (fun rt => (trs rt).card)).sum
  let pred_r := (relTypes.map (fun rt => (prs rt).card)).sum
  let match_r := (relTypes.map (fun rt => (trs rt ∩ prs rt).card)).sum
  { class_metrics := calc_prf true_c pred_c match_c
    relationship_metrics := calc_prf true_r pred_r match_r
    overall_metrics := calc_prf (true_c + true_r) (pred_c + pred_r) (match_c + match_r)
    counts := ⟨true_c, pred_c, match_c, true_r, pred_r, match_r⟩
    matched := sortStr mnames
    mismatched_in_ground_truth :=
      sortStr ((te.map Prod.fst).filter (fun n => decide (¬ n ∈ mnames)))
    extra_in_prediction :=
      sortStr ((pe.map Prod.fst).filter (fun n => decide (¬ n ∈ mnames))) }

/-- The text strictly after the last occurrence of `c` in `l`
(all of `l` when `c` does not occur). -/
def afterLast (c : Char) (l : Str) : Str :=
  (l.reverse.takeWhile (fun x => x ≠ c)).reverse

def keys (m : List (Str × Element)) : List Str := m.map Prod.fst

/- Concrete inputs used to exercise the pipeline in the theorems below. -/

def noRels : Rels := ⟨[], [], [], [], [], []⟩

def assocAB : Rec :=
  [(("source".toList), ("A".toList)), (("target".toList), ("B".toList)),
   (("direction".toList), ("bidirectional".toList)),
   (("multiplicity_source".toList), ("1".toList)),
   (("multiplicity_target".toList), ("5".toList))]

def assocBA : Rec :=
  [(("source".toList), ("B".toList)), (("target".toList), ("A".toList)),
   (("direction".toList), ("bidirectional".toList)),
   (("multiplicity_source".toList), ("5".toList)),
   (("multiplicity_target".toList), ("1".toList))]

def gtCar : Doc := ⟨[⟨("Car".toList), [("+speed: int".toList)], []⟩], [], noRels⟩

def pdCar : Doc := ⟨[⟨("Car".toList), [("+speed: int[1]".toList)], []⟩], [], noRels⟩

def inhRec (pa c : String) : Rec :=
  [(("parent".toList), pa.toList), (("child".toList), c.toList)]

def gtMix : Doc :=
  ⟨[⟨("A".toList), [], []⟩], [],
   ⟨[], [], [], [], [inhRec "P" "C1", inhRec "P" "C2"], []⟩⟩

def pdMix : Doc :=
  ⟨[⟨("A".toList), [], []⟩], [],
   ⟨[], [], [], [], [inhRec "P" "C1", inhRec "P" "C3"], []⟩⟩

def gtAx : Doc := ⟨[⟨("A".toList), [("x".toList)], []⟩], [], noRels⟩

def pdAy : Doc := ⟨[⟨("A".toList), [("y".toList)], []⟩], [], noRels⟩

def colorEnum : EnumRec := ⟨("Color".toList), [("RED".toList), ("GREEN".toList)]⟩

def colorDoc : Doc := ⟨[⟨("Color".toList), [("+r".toList)], []⟩], [colorEnum], noRels⟩

def depGood : Rec :=
  [(("dependent".toList), ("A".toList)), (("supplier".toList), ("B".toList))]

def depBad : Rec := [(("dependent".toList), ("A".toList))]

def pdColor : Doc := ⟨[], [colorEnum], noRels⟩

/-! ## Basic lemmas -/

lemma round4_zero : round4 0 = 0 := by
  norm_num [round4, Int.floor_eq_iff]

/-! ## Claims -/

/-- Claim C1 (code bug): `parse_association` orders the endpoint pair of a
bidirectional association lexicographically but does not swap the two
multiplicities along with the pair, so the record `A→B` with multiplicities
`(1,5)` and its reversal `B→A` with `(5,1)` produce different keys:
`((A,B),5,1..1)` versus `((A,B),1..1,5)`. -/
theorem parse_association_bidirectional_not_symmetric :
    parse_association assocAB
        = some ((("A".toList), ("B".toList)), ("5".toList), ("1..1".toList))
      ∧ parse_association assocBA
        = some ((("A".toList), ("B".toList)), ("1..1".toList), ("5".toList))
      ∧ parse_association assocAB ≠ parse_association assocBA := by
  refine ⟨by decide, by decide, by decide⟩

/-- Claim C2 (code bug): `parse_attribute` leaves the multiplicity default as
the raw string `"1"` (never routed through `normalize_multiplicity`), so an
attribute without a bracketed multiplicity gets multiplicity `"1"`, not
`"1..1"`; the bracketed example does normalize as claimed. -/
theorem parse_attribute_default_multiplicity :
    parse_attribute ("age".toList)
        = (("+".toList), ("age".toList), [], ("1".toList))
      ∧ parse_attribute ("+name: Type[0..*]".toList)
        = (("+".toList), ("name".toList), ("Type".toList), ("0..*".toList))
      ∧ ("1".toList) ≠ ("1..1".toList) := by
  refine ⟨by decide, by decide, by decide⟩

/-- Claim C3 (code bug): because the bracket-less attribute `"+speed: int"`
keeps the raw default multiplicity `"1"` while `"+speed: int[1]"` normalizes
to `"1..1"`, the two `Car` classes compare unequal: `compute_metrics` reports
class precision/recall/f1 of 0, not the claimed 1.0, and `Car` lands in the
mismatch lists instead of `matched`. -/
theorem compute_metrics_car_not_matched :
    (compute_metrics gtCar pdCar).class_metrics = ⟨0, 0, 0⟩
      ∧ (compute_metrics gtCar pdCar).matched = []
      ∧ (compute_metrics gtCar pdCar).mismatched_in_ground_truth = [("Car".toList)]
      ∧ (compute_metrics gtCar pdCar).extra_in_prediction = [("Car".toList)] := by
  refine ⟨?_, by decide, by decide, by decide⟩
  have h : (compute_metrics gtCar pdCar).class_metrics = calc_prf 1 1 0 := rfl
  rw [h]
  simp only [calc_prf, raw_precision, raw_recall, PRF.mk.injEq]
  norm_num [round4, Int.floor_eq_iff]

/-- Claim C6: the overall metric triple is `calc_prf` applied to the summed
raw counts (elements + relationships), and on a concrete pair of documents
its f1 differs from the average of the class-level and relationship-level
f1 values. -/
theorem overall_metrics_from_summed_counts :
    (∀ t p : Doc,
      (compute_metrics t p).overall_metrics =
        calc_prf ((compute_metrics t p).counts.true_c + (compute_metrics t p).counts.true_r)
          ((compute_metrics t p).counts.pred_c + (compute_metrics t p).counts.pred_r)
          ((compute_metrics t p).counts.match_c + (compute_metrics t p).counts.match_r))
      ∧ (compute_metrics gtMix pdMix).overall_metrics.f1 ≠
          ((compute_metrics gtMix pdMix).class_metrics.f1 +
            (compute_metrics gtMix pdMix).relationship_metrics.f1) / 2 := by
  constructor
  · intro t p
    rfl
  · have h1 : (compute_metrics gtMix pdMix).class_metrics = calc_prf 1 1 1 := rfl
    have h2 : (compute_metrics gtMix pdMix).relationship_metrics = calc_prf 2 2 1 := rfl
    have h3 : (compute_metrics gtMix pdMix).overall_metrics = calc_prf 3 3 2 := rfl
    rw [h1, h2, h3]
    simp only [calc_prf, raw_precision, raw_recall]
    norm_num [round4, Int.floor_eq_iff]

/-- Claim C8: in `calc_prf`, precision is 0 when the predicted count is 0,
recall is 0 when the true count is 0, f1 is 0 when the (raw) precision and
recall sum to 0, and with both counts 0 all three metrics are exactly 0;
the function is total, so no division by zero can occur. -/
theorem calc_prf_boundary (tn pn mn : ℕ) :
    (pn = 0 → (calc_prf tn pn mn).precision = 0)
      ∧ (tn = 0 → (calc_prf tn pn mn).recall_ = 0)
      ∧ (raw_precision pn mn + raw_recall tn mn = 0 → (calc_prf tn pn mn).f1 = 0)
      ∧ (tn = 0 ∧ pn = 0 →
          (calc_prf tn pn mn).precision = 0 ∧ (calc_prf tn pn mn).recall_ = 0
            ∧ (calc_prf tn pn mn).f1 = 0) := by
  refine ⟨?_, ?_, ?_, ?_⟩
  · intro h
    subst h
    simp [calc_prf, raw_precision, round4_zero]
  · intro h
    subst h
    simp [calc_prf, raw_recall, round4_zero]
  · intro h
    simp only [calc_prf]
    rw [h]
    simp [round4_zero]
  · rintro ⟨h1, h2⟩
    subst h1
    subst h2
    simp [calc_prf, raw_precision, raw_recall, round4_zero]

theorem calc_prf_boundary_witness :
    ((0 : ℕ) = 0 ∧ (0 : ℕ) = 0)
      ∧ ((calc_prf 0 0 3).precision = 0 ∧ (calc_prf 0 0 3).recall_ = 0
          ∧ (calc_prf 0 0 3).f1 = 0) :=
  ⟨⟨rfl, rfl⟩, (calc_prf_boundary 0 0 3).2.2.2 ⟨rfl, rfl⟩⟩

lemma relStep_key (rt : String) (g : Rec) (hrt : rt ∈ relTypes)
    (hg : ∀ f ∈ requiredFields rt, (Rec.get g f).isSome = true) :
    ∃ k, relStep rt g = some (some k) := by
  fin_cases hrt <;> simp only [requiredFields] at hg <;> simp at hg <;>
    obtain ⟨s, hs⟩ := Option.isSome_iff_exists.mp hg.1 <;>
      obtain ⟨t, ht⟩ := Option.isSome_iff_exists.mp hg.2 <;>
        exact ⟨_, by simp [relStep, parse_association, hs, ht]; rfl⟩

lemma relStep_warn (rt : String) (b : Rec) (hrt : rt ∈ relTypes)
    (hb : ∃ f ∈ requiredFields rt, Rec.get b f = none) :
    relStep rt b = some none := by
  fin_cases hrt <;> simp only [requiredFields] at hb <;> simp at hb
  · obtain hb | hb := hb
    · rcases h2 : Rec.get b ("target".toList) with _ | t <;> simp [relStep, hb, h2]
    · rcases h2 : Rec.get b ("source".toList) with _ | s <;> simp [relStep, hb, h2]
  · obtain hb | hb := hb
    · rcases h2 : Rec.get b ("part".toList) with _ | t <;> simp [relStep, hb, h2]
    · rcases h2 : Rec.get b ("whole".toList) with _ | s <;> simp [relStep, hb, h2]
  · obtain hb | hb := hb
    · rcases h2 : Rec.get b ("part".toList) with _ | t <;> simp [relStep, hb, h2]
    · rcases h2 : Rec.get b ("whole".toList) with _ | s <;> simp [relStep, hb, h2]
  · obtain hb | hb := hb
    · rcases h2 : Rec.get b ("supplier".toList) with _ | t <;> simp [relStep, hb, h2]
    · rcases h2 : Rec.get b ("dependent".toList) with _ | s <;> simp [relStep, hb, h2]
  · obtain hb | hb := hb
    · rcases h2 : Rec.get b ("child".toList) with _ | t <;> simp [relStep, hb, h2]
    · rcases h2 : Rec.get b ("parent".toList) with _ | s <;> simp [relStep, hb, h2]
  · obtain hb | hb := hb
    · rcases h2 : Rec.get b ("implementation".toList) with _ | t <;> simp [relStep, hb, h2]
    · rcases h2 : Rec.get b ("interface".toList) with _ | s <;> simp [relStep, hb, h2]

/-- Claim C5: for each of the six relationship types, a record list made of
one well-formed record and one record with a required field missing yields
exactly the singleton set of the well-formed record's key, with exactly one
warning (at the malformed record's index), in either order; the extraction
fold is total, so no exception ever reaches the caller. -/
theorem process_relationships_resilient (rt : String) (g b : Rec)
    (hrt : rt ∈ relTypes)
    (hg : ∀ f ∈ requiredFields rt, (Rec.get g f).isSome = true)
    (hb : ∃ f ∈ requiredFields rt, Rec.get b f = none) :
    ∃ k, relStep rt g = some (some k)
      ∧ process_relationships [g, b] rt = ({k}, [1])
      ∧ process_relationships [b, g] rt = ({k}, [0]) := by
  obtain ⟨k, hk⟩ := relStep_key rt g hrt hg
  have hw := relStep_warn rt b hrt hb
  exact ⟨k, hk, by simp [process_relationships, hk, hw], by simp [process_relationships, hk, hw]⟩

theorem process_relationships_resilient_witness :
    (("dependency" : String) ∈ relTypes)
      ∧ (∃ k, relStep "dependency" depGood = some (some k)
          ∧ process_relationships [depGood, depBad] "dependency" = ({k}, [1])
          ∧ process_relationships [depBad, depGood] "dependency" = ({k}, [0])) :=
  ⟨by decide, process_relationships_resilient "dependency" depGood depBad
    (by decide) (by decide) (by decide)⟩

/-! ## Lemmas about `trim` -/

lemma dropWhile_dropWhile (p : Char → Bool) (l : Str) :
    (l.dropWhile p).dropWhile p = l.dropWhile p := by
  induction l with
  | nil => rfl
  | cons x xs ih =>
    by_cases h : p x = true
    · simp [List.dropWhile_cons, h, ih]
    · simp [List.dropWhile_cons, h]

lemma trimR_decomp (l : Str) :
    ∃ b, l.dropWhile wsB = trim l ++ b ∧ ∀ c ∈ b, wsB c = true := by
  refine ⟨((l.dropWhile wsB).reverse.takeWhile wsB).reverse, ?_, ?_⟩
  · show l.dropWhile wsB =
      ((l.dropWhile wsB).reverse.dropWhile wsB).reverse ++
        ((l.dropWhile wsB).reverse.takeWhile wsB).reverse
    rw [← List.reverse_append, List.takeWhile_append_dropWhile, List.reverse_reverse]
  · intro c hc
    rw [List.mem_reverse] at hc
    exact List.mem_takeWhile_imp hc

lemma trim_anatomy (l : Str) :
    ∃ f b, l = f ++ trim l ++ b
      ∧ (∀ c ∈ f, wsB c = true) ∧ (∀ c ∈ b, wsB c = true) := by
  obtain ⟨b, hb, hbw⟩ := trimR_decomp l
  refine ⟨l.takeWhile wsB, b, ?_, ?_, hbw⟩
  · conv_lhs => rw [← List.takeWhile_append_dropWhile wsB l]
    rw [hb, List.append_assoc]
  · intro c hc
    exact List.mem_takeWhile_imp hc

lemma dropWhile_head_false (p : Char → Bool) (l : Str) :
    l.dropWhile p = [] ∨ ∃ c t, l.dropWhile p = c :: t ∧ p c = false := by
  induction l with
  | nil => exact Or.inl rfl
  | cons x xs ih =>
    by_cases h : p x = true
    · simpa [List.dropWhile_cons, h] using ih
    · exact Or.inr ⟨x, xs, by simp [List.dropWhile_cons, h], by simpa using h⟩

lemma dropWhile_trim (l : Str) : (trim l).dropWhile wsB = trim l := by
  obtain ⟨b, hb, _⟩ := trimR_decomp l
  rcases dropWhile_head_false wsB l with h | ⟨c, t, h, hc⟩
  · have h0 : trim l = [] := by simp [trim, h]
    rw [h0]
    rfl
  · cases htl : trim l with
    | nil => rfl
    | cons d ds =>
      rw [h, htl] at hb
      injection hb with h1 h2
      rw [List.dropWhile_cons]
      have hd : wsB d = false := h1 ▸ hc
      simp [hd]

lemma dropWhile_trim_reverse (l : Str) :
    (trim l).reverse.dropWhile wsB = (trim l).reverse := by
  show ((((l.dropWhile wsB).reverse.dropWhile wsB).reverse).reverse).dropWhile wsB = _
  rw [List.reverse_reverse, dropWhile_dropWhile]
  rw [trim, List.reverse_reverse]

lemma trim_trim (l : Str) : trim (trim l) = trim l := by
  show (((trim l).dropWhile wsB).reverse.dropWhile wsB).reverse = trim l
  rw [dropWhile_trim, dropWhile_trim_reverse, List.reverse_reverse]

/-- Claim C9 (amended): `normalize_multiplicity` is idempotent on every
string that is empty or whose trimmed form is nonempty (equivalently: on
everything except nonempty all-whitespace strings, where the code returns
`""` whose re-normalization is `"1..1"`). -/
theorem normalize_multiplicity_idem (s : Str) (h : s = [] ∨ trim s ≠ []) :
    normalize_multiplicity (normalize_multiplicity s) = normalize_multiplicity s := by
  rcases h with h | h
  · subst h
    decide
  · have hs : s ≠ [] := by
      rintro rfl
      exact h rfl
    by_cases h1 : trim s = ['1']
    · have e : normalize_multiplicity s = ("1..1".toList) := by
        simp [normalize_multiplicity, hs, h1]
      rw [e]
      decide
    · by_cases h2 : trim s = ['*'] ∨ trim s = ['.', '.', '*']
      · have e : normalize_multiplicity s = ("0..*".toList) := by
          simp [normalize_multiplicity, hs, h1, h2]
        rw [e]
        decide
      · by_cases h3 : trim s = ['1', '.', '.']
        · have e : normalize_multiplicity s = ("1..*".toList) := by
            simp [normalize_multiplicity, hs, h1, h2, h3]
          rw [e]
          decide
        · have e : normalize_multiplicity s = trim s := by
            simp [normalize_multiplicity, hs, h1, h2, h3]
          rw [e]
          simp [normalize_multiplicity, h, trim_trim, h1, h2, h3]

/-- Claim C9 counterexample: on the nonempty all-whitespace string `" "`,
`normalize_multiplicity` returns `""`, and normalizing again gives `"1..1"`,
so normalization is not idempotent there. -/
theorem normalize_multiplicity_blank_not_idem :
    normalize_multiplicity (normalize_multiplicity (" ".toList))
      ≠ normalize_multiplicity (" ".toList) := by
  decide

theorem normalize_multiplicity_idem_witness :
    (("*".toList) = [] ∨ trim ("*".toList) ≠ [])
      ∧ normalize_multiplicity (normalize_multiplicity ("*".toList))
          = normalize_multiplicity ("*".toList)
      ∧ normalize_multiplicity ("*".toList) = ("0..*".toList) :=
  ⟨by decide, normalize_multiplicity_idem _ (by decide), by decide⟩

/-! ## Lemmas about the name-keyed element map -/

lemma dinsert_nil (k : Str) (v : Element) : dinsert [] k v = [(k, v)] := rfl

lemma dinsert_cons (k' : Str) (v' : Element) (rest : List (Str × Element))
    (k : Str) (v : Element) :
    dinsert ((k', v') :: rest) k v =
      if k' = k then (k', v) :: rest else (k', v') :: dinsert rest k v := rfl

lemma mem_keys_dinsert (a k : Str) (v : Element) (m : List (Str × Element)) :
    a ∈ keys (dinsert m k v) ↔ a ∈ keys m ∨ a = k := by
  induction m with
  | nil => simp [dinsert_nil, keys]
  | cons x xs ih =>
    obtain ⟨k', v'⟩ := x
    by_cases hk : k' = k
    · subst hk
      simp [dinsert_cons, keys]
      tauto
    · simp [dinsert_cons, hk, keys] at ih ⊢
      rw [ih]
      tauto

lemma nodup_keys_dinsert (k : Str) (v : Element) (m : List (Str × Element))
    (hm : (keys m).Nodup) : (keys (dinsert m k v)).Nodup := by
  induction m with
  | nil => simp [dinsert_nil, keys]
  | cons x xs ih =>
    obtain ⟨k', v'⟩ := x
    have hm2 : (k' :: keys xs).Nodup := hm
    have hm' : k' ∉ keys xs ∧ (keys xs).Nodup := List.nodup_cons.mp hm2
    by_cases hk : k' = k
    · rw [dinsert_cons, if_pos hk]
      exact hm
    · rw [dinsert_cons, if_neg hk]
      have h1 : k' ∉ keys (dinsert xs k v) := by
        rw [mem_keys_dinsert]
        rintro (h | h)
        · exact hm'.1 h
        · exact hk h
      show (k' :: keys (dinsert xs k v)).Nodup
      exact List.nodup_cons.mpr ⟨h1, ih hm'.2⟩

lemma lookup_dinsert_self (k : Str) (v : Element) (m : List (Str × Element)) :
    List.lookup k (dinsert m k v) = some v := by
  induction m with
  | nil => simp [dinsert_nil, List.lookup]
  | cons x xs ih =>
    obtain ⟨k', v'⟩ := x
    by_cases hk : k' = k
    · simp [dinsert_cons, hk, List.lookup]
    · have hne : (k == k') = false := by
        simp [beq_eq_false_iff_ne]
        exact fun h => hk h.symm
      simp [dinsert_cons, hk, List.lookup, hne, ih]

lemma lookup_dinsert_ne (a k : Str) (v : Element) (m : List (Str × Element))
    (h : a ≠ k) : List.lookup a (dinsert m k v) = List.lookup a m := by
  induction m with
  | nil => simp [dinsert_nil, List.lookup, beq_eq_false_iff_ne.mpr h]
  | cons x xs ih =>
    obtain ⟨k', v'⟩ := x
    by_cases hk : k' = k
    · subst hk
      simp [dinsert_cons, List.lookup, beq_eq_false_iff_ne.mpr h]
    · simp [dinsert_cons, hk, List.lookup, ih]

lemma lookup_mem {m : List (Str × Element)} {a : Str} {v : Element}
    (h : List.lookup a m = some v) : (a, v) ∈ m := by
  induction m with
  | nil => simp [List.lookup] at h
  | cons x xs ih =>
    obtain ⟨k, w⟩ := x
    by_cases hak : a = k
    · subst hak
      simp [List.lookup] at h
      subst h
      exact List.mem_cons_self _ _
    · simp [List.lookup, beq_eq_false_iff_ne.mpr hak] at h
      exact List.mem_cons_of_mem _ (ih h)

lemma lookup_of_mem_nodup {m : List (Str × Element)} {a : Str} {v : Element}
    (hnd : (keys m).Nodup) (hm : (a, v) ∈ m) : List.lookup a m = some v := by
  induction m with
  | nil => simp at hm
  | cons x xs ih =>
    obtain ⟨k, w⟩ := x
    have hnd2 : (k :: keys xs).Nodup := hnd
    have hnd' : k ∉ keys xs ∧ (keys xs).Nodup := List.nodup_cons.mp hnd2
    rcases List.mem_cons.mp hm with h | h
    · injection h with h1 h2
      subst h1
      subst h2
      simp [List.lookup]
    · have hak : a ≠ k := by
        rintro rfl
        exact hnd'.1 (List.mem_map_of_mem Prod.fst h)
      simp [List.lookup, beq_eq_false_iff_ne.mpr hak]
      exact ih hnd'.2 h

lemma nodup_keys_foldl {α : Type} (key : α → Str) (val : α → Element) :
    ∀ (L : List α) (m : List (Str × Element)), (keys m).Nodup →
      (keys (L.foldl (fun acc x => dinsert acc (key x) (val x)) m)).Nodup := by
  intro L
  induction L with
  | nil => exact fun m hm => hm
  | cons x xs ih => exact fun m hm => ih _ (nodup_keys_dinsert _ _ _ hm)

lemma nodup_keys_buildElements (d : Doc) : (keys (buildElements d)).Nodup :=
  nodup_keys_foldl EnumRec.ename enumElem _ _
    (nodup_keys_foldl ClassRec.cname classElem _ _ (by simp [keys]))

lemma mem_sinsert (a x : Str) (l : List Str) :
    a ∈ sinsert x l ↔ a = x ∨ a ∈ l := by
  induction l with
  | nil => simp [sinsert]
  | cons y ys ih =>
    by_cases h : strLt x y = true <;> simp [sinsert, h, ih] <;> tauto

lemma mem_sortStr (a : Str) (l : List Str) : a ∈ sortStr l ↔ a ∈ l := by
  induction l with
  | nil => simp [sortStr]
  | cons x xs ih => simp [sortStr, mem_sinsert, ih]

lemma mem_matchedNames_iff {te pe : List (Str × Element)} {n : Str} {et ep : Element}
    (hnd : (keys te).Nodup) (ht : List.lookup n te = some et)
    (hp : List.lookup n pe = some ep) :
    n ∈ matchedNames te pe ↔ (et.attrs = ep.attrs ∧ et.ops = ep.ops) := by
  unfold matchedNames
  rw [List.mem_map]
  constructor
  · rintro ⟨⟨a, e⟩, hq, rfl⟩
    rw [List.mem_filter] at hq
    obtain ⟨hqmem, hqmatch⟩ := hq
    have he : List.lookup a te = some e := lookup_of_mem_nodup hnd hqmem
    rw [ht] at he
    injection he with he
    subst he
    unfold elemMatch at hqmatch
    rw [hp] at hqmatch
    simpa using hqmatch
  · rintro ⟨h1, h2⟩
    refine ⟨(n, et), ?_, rfl⟩
    rw [List.mem_filter]
    refine ⟨lookup_mem ht, ?_⟩
    unfold elemMatch
    rw [hp]
    simp [h1, h2]

/-- Claim C4: a name present in both element universes is matched iff the
two sides' full attribute sets and full operation sets are equal; when they
differ in any way the name is unmatched and appears in both the
`mismatched_in_ground_truth` and `extra_in_prediction` lists. -/
theorem element_matching_exact (t p : Doc) (n : Str) (et ep : Element)
    (ht : List.lookup n (buildElements t) = some et)
    (hp : List.lookup n (buildElements p) = some ep) :
    (n ∈ (compute_metrics t p).matched ↔ (et.attrs = ep.attrs ∧ et.ops = ep.ops))
      ∧ ((et.attrs ≠ ep.attrs ∨ et.ops ≠ ep.ops) →
          n ∈ (compute_metrics t p).mismatched_in_ground_truth
            ∧ n ∈ (compute_metrics t p).extra_in_prediction) := by
  have hnd := nodup_keys_buildElements t
  have hmm := mem_matchedNames_iff hnd ht hp
  have hmatched : (compute_metrics t p).matched =
      sortStr (matchedNames (buildElements t) (buildElements p)) := rfl
  have hmis : (compute_metrics t p).mismatched_in_ground_truth =
      sortStr (((buildElements t).map Prod.fst).filter
        (fun m => decide (¬ m ∈ matchedNames (buildElements t) (buildElements p)))) := rfl
  have hext : (compute_metrics t p).extra_in_prediction =
      sortStr (((buildElements p).map Prod.fst).filter
        (fun m => decide (¬ m ∈ matchedNames (buildElements t) (buildElements p)))) := rfl
  constructor
  · rw [hmatched, mem_sortStr]
    exact hmm
  · intro hne
    have hnm : ¬ n ∈ matchedNames (buildElements t) (buildElements p) := by
      rw [hmm]
      tauto
    constructor
    · rw [hmis, mem_sortStr, List.mem_filter]
      exact ⟨List.mem_map_of_mem Prod.fst (lookup_mem ht), by simpa using hnm⟩
    · rw [hext, mem_sortStr, List.mem_filter]
      exact ⟨List.mem_map_of_mem Prod.fst (lookup_mem hp), by simpa using hnm⟩

theorem element_matching_exact_witness :
    (List.lookup ("A".toList) (buildElements gtAx)
        = some (classElem ⟨("A".toList), [("x".toList)], []⟩))
      ∧ (List.lookup ("A".toList) (buildElements pdAy)
          = some (classElem ⟨("A".toList), [("y".toList)], []⟩))
      ∧ ((classElem ⟨("A".toList), [("x".toList)], []⟩).attrs
            ≠ (classElem ⟨("A".toList), [("y".toList)], []⟩).attrs
          ∨ (classElem ⟨("A".toList), [("x".toList)], []⟩).ops
            ≠ (classElem ⟨("A".toList), [("y".toList)], []⟩).ops)
      ∧ (("A".toList) ∈ (compute_metrics gtAx pdAy).mismatched_in_ground_truth
          ∧ ("A".toList) ∈ (compute_metrics gtAx pdAy).extra_in_prediction) :=
  ⟨by decide, by decide, by decide,
    (element_matching_exact gtAx pdAy ("A".toList)
      (classElem ⟨("A".toList), [("x".toList)], []⟩)
      (classElem ⟨("A".toList), [("y".toList)], []⟩)
      (by decide) (by decide)).2 (by decide)⟩

/-! ## Lemmas for the class/enum overwrite behaviour -/

lemma lookup_foldl_dinsert_skip {α : Type} (key : α → Str) (val : α → Element) (n : Str) :
    ∀ (L : List α) (m : List (Str × Element)), (∀ x ∈ L, key x ≠ n) →
      List.lookup n (L.foldl (fun acc x => dinsert acc (key x) (val x)) m)
        = List.lookup n m := by
  intro L
  induction L with
  | nil => exact fun m _ => rfl
  | cons x xs ih =>
    intro m hL
    rw [List.foldl_cons, ih _ (fun y hy => hL y (List.mem_cons_of_mem x hy))]
    exact lookup_dinsert_ne n (key x) (val x) m (Ne.symm (hL x (List.mem_cons_self x xs)))

lemma lookup_foldl_dinsert_last {α : Type} (key : α → Str) (val : α → Element)
    (n : Str) (e : α) :
    ∀ (L : List α) (m : List (Str × Element)),
      L.filter (fun x => decide (key x = n)) = [e] →
      List.lookup n (L.foldl (fun acc x => dinsert acc (key x) (val x)) m)
        = some (val e) := by
  intro L
  induction L with
  | nil => intro m h; simp at h
  | cons x xs ih =>
    intro m h
    rw [List.filter_cons] at h
    by_cases hx : key x = n
    · simp only [hx, decide_True, if_true] at h
      obtain ⟨h1, h2⟩ := List.cons_eq_cons.mp h
      have hxs : ∀ y ∈ xs, key y ≠ n := by
        intro y hy hyn
        have hmem : y ∈ xs.filter (fun x => decide (key x = n)) :=
          List.mem_filter.mpr ⟨hy, by simp [hyn]⟩
        rw [h2] at hmem
        simp at hmem
      rw [List.foldl_cons, lookup_foldl_dinsert_skip key val n xs _ hxs]
      subst h1
      rw [← hx]
      exact lookup_dinsert_self (key x) (val x) m
    · simp only [hx, decide_False, if_false] at h
      rw [List.foldl_cons]
      exact ih _ h

lemma keys_toFinset_foldl {α : Type} (key : α → Str) (val : α → Element) :
    ∀ (L : List α) (m : List (Str × Element)),
      (keys (L.foldl (fun acc x => dinsert acc (key x) (val x)) m)).toFinset
        = (keys m).toFinset ∪ (L.map key).toFinset := by
  intro L
  induction L with
  | nil => intro m; simp
  | cons x xs ih =>
    intro m
    rw [List.foldl_cons, ih]
    ext a
    simp [mem_keys_dinsert]
    tauto

lemma buildElements_length (d : Doc) :
    (buildElements d).length =
      ((d.classes.map ClassRec.cname) ++ (d.enumerations.map EnumRec.ename)).toFinset.card := by
  have h1 : (buildElements d).length = (keys (buildElements d)).length := by
    simp [keys]
  rw [h1, ← List.toFinset_card_of_nodup (nodup_keys_buildElements d)]
  congr 1
  show (keys (List.foldl _ (List.foldl _ [] d.classes) d.enumerations)).toFinset = _
  rw [keys_toFinset_foldl EnumRec.ename enumElem,
    keys_toFinset_foldl ClassRec.cname classElem]
  simp [keys, Finset.union_assoc]

/-- Claim C10: when one document contains a class and an enumeration with
the same name, the enumeration (loaded second into the same name-keyed map)
overwrites the class: the name maps to the enumeration's element, whose
attribute set is the canonical literal set and whose operation set is empty;
the element count counts the name once (it is the number of distinct names);
and matching for that name compares against the enumeration's literal set
and empty operation set, not the class's members. -/
theorem enum_overwrites_class (d : Doc) (n : Str) (e : EnumRec)
    (hc : n ∈ d.classes.map ClassRec.cname)
    (he : d.enumerations.filter (fun x => decide (x.ename = n)) = [e]) :
    List.lookup n (buildElements d) = some (enumElem e)
      ∧ (enumElem e).ops = ∅
      ∧ (∀ p : Doc, (compute_metrics d p).counts.true_c =
          ((d.classes.map ClassRec.cname) ++ (d.enumerations.map EnumRec.ename)).toFinset.card)
      ∧ (∀ (pe : List (Str × Element)) (ep : Element), List.lookup n pe = some ep →
          (n ∈ matchedNames (buildElements d) pe
            ↔ ((enumElem e).attrs = ep.attrs ∧ ep.ops = ∅))) := by
  have hlook : List.lookup n (buildElements d) = some (enumElem e) := by
    show List.lookup n (List.foldl _ _ d.enumerations) = _
    exact lookup_foldl_dinsert_last EnumRec.ename enumElem n e d.enumerations _ he
  refine ⟨hlook, rfl, ?_, ?_⟩
  · intro p
    have hcc : (compute_metrics d p).counts.true_c = (buildElements d).length := rfl
    rw [hcc, buildElements_length]
  · intro pe ep hp
    rw [mem_matchedNames_iff (nodup_keys_buildElements d) hlook hp]
    constructor
    · rintro ⟨ha, ho⟩
      exact ⟨ha, ho.symm⟩
    · rintro ⟨ha, ho⟩
      exact ⟨ha, ho.symm⟩

theorem enum_overwrites_class_witness :
    (("Color".toList) ∈ colorDoc.classes.map ClassRec.cname)
      ∧ (colorDoc.enumerations.filter (fun x => decide (x.ename = ("Color".toList)))
          = [colorEnum])
      ∧ List.lookup ("Color".toList) (buildElements colorDoc) = some (enumElem colorEnum)
      ∧ (compute_metrics colorDoc pdColor).counts.true_c =
          ((colorDoc.classes.map ClassRec.cname)
            ++ (colorDoc.enumerations.map EnumRec.ename)).toFinset.card :=
  ⟨by decide, by decide,
    (enum_overwrites_class colorDoc ("Color".toList) colorEnum (by decide) (by decide)).1,
    (enum_overwrites_class colorDoc ("Color".toList) colorEnum
      (by decide) (by decide)).2.2.1 pdColor⟩

/-! ## Lemmas for return-type detection -/

lemma takeWhile_append_all {p : Char → Bool} {xs : Str} (ys : Str)
    (h : ∀ a ∈ xs, p a = true) :
    (xs ++ ys).takeWhile p = xs ++ ys.takeWhile p := by
  induction xs with
  | nil => simp
  | cons x xs ih =>
    have hx : p x = true := h x (List.mem_cons_self x xs)
    simp only [List.cons_append, List.takeWhile_cons, hx, if_true]
    rw [ih (fun a ha => h a (List.mem_cons_of_mem x ha))]

lemma takeWhile_append_stop {p : Char → Bool} {xs : Str} {c : Char} (ys : Str)
    (hc : c ∈ xs) (hpc : p c = false) :
    (xs ++ ys).takeWhile p = xs.takeWhile p := by
  induction xs with
  | nil => simp at hc
  | cons x xs ih =>
    by_cases hx : p x = true
    · have hcx : c ∈ xs := by
        rcases List.mem_cons.mp hc with h | h
        · subst h
          rw [hx] at hpc
          exact absurd hpc (by simp)
        · exact h
      simp only [List.cons_append, List.takeWhile_cons, hx, if_true]
      rw [ih hcx]
    · simp [List.cons_append, List.takeWhile_cons, hx]

lemma dropWhile_append_all {p : Char → Bool} {xs : Str} (ys : Str)
    (h : ∀ a ∈ xs, p a = true) :
    (xs ++ ys).dropWhile p = ys.dropWhile p := by
  induction xs with
  | nil => simp
  | cons x xs ih =>
    have hx : p x = true := h x (List.mem_cons_self x xs)
    simp only [List.cons_append, List.dropWhile_cons, hx, if_true]
    exact ih (fun a ha => h a (List.mem_cons_of_mem x ha))

lemma mem_of_mem_takeWhile {p : Char → Bool} {l : Str} {a : Char}
    (h : a ∈ l.takeWhile p) : a ∈ l := by
  induction l with
  | nil => simpa using h
  | cons x xs ih =>
    by_cases hx : p x = true
    · rw [List.takeWhile_cons, if_pos hx] at h
      rcases List.mem_cons.mp h with h | h
      · exact h ▸ List.mem_cons_self x xs
      · exact List.mem_cons_of_mem x (ih h)
    · rw [List.takeWhile_cons, if_neg hx] at h
      simp at h

lemma rfindI_ge (c : Char) (l : Str) : -1 ≤ rfindI c l := by
  induction l with
  | nil => simp [rfindI]
  | cons x xs ih =>
    simp only [rfindI]
    split
    · omega
    · split <;> omega

lemma rfindI_nonneg (c : Char) (l : Str) : 0 ≤ rfindI c l ↔ c ∈ l := by
  induction l with
  | nil => simp [rfindI]
  | cons x xs ih =>
    simp only [rfindI, List.mem_cons]
    by_cases h : 0 ≤ rfindI c xs
    · simp only [h, if_true]
      constructor
      · intro _
        exact Or.inr (ih.mp h)
      · intro _
        omega
    · simp only [h, if_false]
      by_cases hx : x = c
      · simp [hx]
      · simp only [hx, if_false]
        constructor
        · intro hh
          omega
        · rintro (hh | hh)
          · exact absurd hh.symm hx
          · exact absurd (ih.mpr hh) h

lemma afterLast_cons_of_mem {c : Char} {xs : Str} (x : Char) (hc : c ∈ xs) :
    afterLast c (x :: xs) = afterLast c xs := by
  unfold afterLast
  rw [List.reverse_cons,
    takeWhile_append_stop [x] (List.mem_reverse.mpr hc) (by simp)]

lemma afterLast_cons_self {c : Char} {xs : Str} (hc : c ∉ xs) :
    afterLast c (c :: xs) = xs := by
  unfold afterLast
  rw [List.reverse_cons,
    takeWhile_append_all [c] (fun a ha => by
      simp only [decide_eq_true_eq]
      rintro rfl
      exact hc (List.mem_reverse.mp ha))]
  simp

lemma afterLast_subset {c a : Char} {l : Str} (h : a ∈ afterLast c l) : a ∈ l := by
  unfold afterLast at h
  rw [List.mem_reverse] at h
  exact List.mem_reverse.mp (mem_of_mem_takeWhile h)

lemma drop_rfindI {c : Char} {l : Str} (hc : c ∈ l) :
    l.drop ((rfindI c l).toNat + 1) = afterLast c l := by
  induction l with
  | nil => simp at hc
  | cons x xs ih =>
    by_cases h : c ∈ xs
    · have hr : 0 ≤ rfindI c xs := (rfindI_nonneg c xs).mpr h
      have e : rfindI c (x :: xs) = rfindI c xs + 1 := by
        simp [rfindI, hr]
      rw [e, afterLast_cons_of_mem x h]
      have htn : (rfindI c xs + 1).toNat = (rfindI c xs).toNat + 1 := by omega
      rw [htn, List.drop_succ_cons]
      exact ih h
    · have hx : x = c := by
        rcases List.mem_cons.mp hc with h1 | h1
        · exact h1.symm
        · exact absurd h1 h
      subst hx
      have hr : ¬ 0 ≤ rfindI x xs := fun hh => h ((rfindI_nonneg x xs).mp hh)
      have e : rfindI x (x :: xs) = 0 := by
        simp [rfindI, hr]
      rw [e, afterLast_cons_self h]
      simp

lemma rfindI_lt_iff {d c : Char} (hdc : d ≠ c) (l : Str) :
    rfindI d l < rfindI c l ↔ (c ∈ l ∧ d ∉ afterLast c l) := by
  induction l with
  | nil => simp [rfindI]
  | cons x xs ih =>
    by_cases hc : c ∈ xs
    · have hrc : 0 ≤ rfindI c xs := (rfindI_nonneg c xs).mpr hc
      have ec : rfindI c (x :: xs) = rfindI c xs + 1 := by simp [rfindI, hrc]
      rw [afterLast_cons_of_mem x hc, ec]
      by_cases hd : d ∈ xs
      · have hrd : 0 ≤ rfindI d xs := (rfindI_nonneg d xs).mpr hd
        have ed : rfindI d (x :: xs) = rfindI d xs + 1 := by simp [rfindI, hrd]
        rw [ed]
        constructor
        · intro hlt
          exact ⟨List.mem_cons_of_mem x hc, (ih.mp (by omega)).2⟩
        · rintro ⟨_, hna⟩
          have := ih.mpr ⟨hc, hna⟩
          omega
      · have hrd : ¬ 0 ≤ rfindI d xs := fun hh => hd ((rfindI_nonneg d xs).mp hh)
        have ed : rfindI d (x :: xs) = if x = d then 0 else -1 := by
          simp [rfindI, hrd]
        rw [ed]
        constructor
        · intro _
          exact ⟨List.mem_cons_of_mem x hc, fun ha => hd (afterLast_subset ha)⟩
        · intro _
          split <;> omega
    · by_cases hxc : x = c
      · subst hxc
        have hrc : ¬ 0 ≤ rfindI x xs := fun hh => hc ((rfindI_nonneg x xs).mp hh)
        have ec : rfindI x (x :: xs) = 0 := by simp [rfindI, hrc]
        rw [ec, afterLast_cons_self hc]
        by_cases hd : d ∈ xs
        · have hrd : 0 ≤ rfindI d xs := (rfindI_nonneg d xs).mpr hd
          have ed : rfindI d (x :: xs) = rfindI d xs + 1 := by simp [rfindI, hrd]
          rw [ed]
          constructor
          · intro hlt
            omega
          · rintro ⟨_, hna⟩
            exact (hna hd).elim
        · have hrd : ¬ 0 ≤ rfindI d xs := fun hh => hd ((rfindI_nonneg d xs).mp hh)
          have ed : rfindI d (x :: xs) = if x = d then 0 else -1 := by
            simp [rfindI, hrd]
          rw [ed, if_neg (fun h => hdc h.symm)]
          constructor
          · intro _
            exact ⟨List.mem_cons_self x xs, hd⟩
          · intro _
            omega
      · have hrc : ¬ 0 ≤ rfindI c xs := fun hh => hc ((rfindI_nonneg c xs).mp hh)
        have ec : rfindI c (x :: xs) = -1 := by
          simp only [rfindI]
          rw [if_neg hrc, if_neg hxc]
        rw [ec]
        have hcm : c ∉ x :: xs := by
          rw [List.mem_cons]
          rintro (h | h)
          · exact hxc h.symm
          · exact hc h
        constructor
        · intro hlt
          have := rfindI_ge d (x :: xs)
          omega
        · rintro ⟨hmem, _⟩
          exact absurd hmem hcm

lemma afterLast_append {c : Char} {m : Str} (p₁ p₂ : Str)
    (hm : c ∈ m) (hp2 : c ∉ p₂) :
    afterLast c (p₁ ++ m ++ p₂) = afterLast c m ++ p₂ := by
  unfold afterLast
  rw [List.reverse_append, List.reverse_append]
  rw [takeWhile_append_all (m.reverse ++ p₁.reverse) (fun a ha => by
    simp only [decide_eq_true_eq]
    rintro rfl
    exact hp2 (List.mem_reverse.mp ha))]
  rw [takeWhile_append_stop p₁.reverse (List.mem_reverse.mpr hm) (by simp)]
  rw [List.reverse_append, List.reverse_reverse]

lemma dropWhile_eq_nil_ws {w : Str} (hw : ∀ a ∈ w, wsB a = true) :
    w.dropWhile wsB = [] := by
  induction w with
  | nil => rfl
  | cons x xs ih =>
    rw [List.dropWhile_cons, if_pos (hw x (List.mem_cons_self x xs))]
    exact ih (fun a ha => hw a (List.mem_cons_of_mem x ha))

lemma trim_append_ws {x w : Str} (hw : ∀ a ∈ w, wsB a = true) :
    trim (x ++ w) = trim x := by
  rcases dropWhile_head_false wsB x with h0 | ⟨c, t, h0, hc⟩
  · have h1 : (x ++ w).dropWhile wsB = [] := by
      rw [← List.takeWhile_append_dropWhile wsB x, List.append_assoc,
        dropWhile_append_all _ (fun a ha => List.mem_takeWhile_imp ha), h0]
      exact dropWhile_eq_nil_ws hw
    simp [trim, h0, h1]
  · have h1 : (x ++ w).dropWhile wsB = x.dropWhile wsB ++ w := by
      conv_lhs => rw [← List.takeWhile_append_dropWhile wsB x]
      rw [List.append_assoc,
        dropWhile_append_all _ (fun a ha => List.mem_takeWhile_imp ha), h0,
        List.cons_append, List.dropWhile_cons, if_neg (by simp [hc]),
        ← List.cons_append, ← h0]
    show (((x ++ w).dropWhile wsB).reverse.dropWhile wsB).reverse = trim x
    rw [h1, List.reverse_append,
      dropWhile_append_all _ (fun a ha => hw a (List.mem_reverse.mp ha))]
    rfl

/-- Anatomy of the preprocessing done by `parse_operation` before return-type
detection: the original string is the post-visibility string surrounded by a
left part made of whitespace and at most one visibility character, and a
right part made of whitespace. -/
lemma opAnatomy (l : Str) :
    ∃ p₁ p₂, l = p₁ ++ (splitVis (trim l)).2 ++ p₂
      ∧ (∀ c ∈ p₁, wsB c = true ∨ visChar c = true)
      ∧ (∀ c ∈ p₂, wsB c = true) := by
  obtain ⟨f, b, hfb, hf, hbw⟩ := trim_anatomy l
  cases h : trim l with
  | nil =>
    refine ⟨f, b, ?_, fun c hc => Or.inl (hf c hc), hbw⟩
    rw [h] at hfb
    simpa [splitVis] using hfb
  | cons cc rest =>
    by_cases hv : visChar cc = true
    · have hsv : (splitVis (cc :: rest)).2 = trim rest := by
        simp [splitVis, hv]
      obtain ⟨f₂, b₂, hfb₂, hf₂, hb₂⟩ := trim_anatomy rest
      refine ⟨f ++ cc :: f₂, b₂ ++ b, ?_, ?_, ?_⟩
      · rw [hsv, hfb, h]
        conv_lhs => rw [hfb₂]
        simp [List.append_assoc]
      · intro a ha
        rcases List.mem_append.mp ha with h1 | h1
        · exact Or.inl (hf a h1)
        · rcases List.mem_cons.mp h1 with h2 | h2
          · exact Or.inr (h2 ▸ hv)
          · exact Or.inl (hf₂ a h2)
      · intro a ha
        rcases List.mem_append.mp ha with h1 | h1
        · exact hb₂ a h1
        · exact hbw a h1
    · have hsv : (splitVis (cc :: rest)).2 = cc :: rest := by
        simp [splitVis, hv]
      refine ⟨f, b, ?_, fun c hc => Or.inl (hf c hc), hbw⟩
      rw [hsv, ← h]
      exact hfb

lemma retSplit_pos (op2 : Str) (hcnt : op2.count '(' = op2.count ')')
    (hlt : rfindI ')' op2 < rfindI ':' op2) :
    (retSplit op2).1 = trim (op2.drop ((rfindI ':' op2).toNat + 1)) := by
  have hmem : ':' ∈ op2 := by
    have h1 := rfindI_ge ')' op2
    exact (rfindI_nonneg ':' op2).mp (by omega)
  simp [retSplit, hmem, hcnt, hlt]

lemma retSplit_neg (op2 : Str)
    (h : ¬(op2.count '(' = op2.count ')' ∧ rfindI ')' op2 < rfindI ':' op2)) :
    (retSplit op2).1 = ("void".toList) := by
  by_cases h1 : ':' ∈ op2
  · by_cases h2 : op2.count '(' = op2.count ')'
    · have h3 : ¬ rfindI ')' op2 < rfindI ':' op2 := fun hh => h ⟨h2, hh⟩
      simp [retSplit, h1, h2, h3]
    · simp [retSplit, h2]
  · simp [retSplit, h1]

lemma parse_operation_ret (l : Str) :
    (parse_operation l).2.2.2 = (retSplit ((splitVis (trim l)).2)).1 := by
  unfold parse_operation
  dsimp only
  split
  · rfl
  · split
    · rfl
    · rfl

/-- Claim C7: `parse_operation` resolves the return type as the (trimmed)
text after the last `:` of the input exactly when the count of `(` equals
the count of `)` and the last `:` occurs after the last `)` (positions via
Python `rfind`, `-1` when absent); in every other case the return type is
`"void"`. -/
theorem parse_operation_return_type (l : Str) :
    (l.count '(' = l.count ')' ∧ rfindI ')' l < rfindI ':' l →
        (parse_operation l).2.2.2 = trim (l.drop ((rfindI ':' l).toNat + 1)))
      ∧ (¬(l.count '(' = l.count ')' ∧ rfindI ')' l < rfindI ':' l) →
          (parse_operation l).2.2.2 = ("void".toList)) := by
  obtain ⟨p₁, p₂, hl, hp₁, hp₂⟩ := opAnatomy l
  have hnot : ∀ c : Char, wsB c = false → visChar c = false → (c ∉ p₁ ∧ c ∉ p₂) := by
    intro c hw hv
    constructor
    · intro h
      rcases hp₁ c h with h' | h'
      · rw [hw] at h'
        exact absurd h' (by simp)
      · rw [hv] at h'
        exact absurd h' (by simp)
    · intro h
      have h' := hp₂ c h
      rw [hw] at h'
      exact absurd h' (by simp)
  have hcnt : ∀ c : Char, wsB c = false → visChar c = false →
      l.count c = ((splitVis (trim l)).2).count c := by
    intro c hw hv
    obtain ⟨h1, h2⟩ := hnot c hw hv
    conv_lhs => rw [hl]
    rw [List.count_append, List.count_append,
      List.count_eq_zero.mpr h1, List.count_eq_zero.mpr h2]
    omega
  have hmemt : ∀ c : Char, wsB c = false → visChar c = false →
      (c ∈ l ↔ c ∈ (splitVis (trim l)).2) := by
    intro c hw hv
    obtain ⟨h1, h2⟩ := hnot c hw hv
    constructor
    · intro h
      rw [hl] at h
      rcases List.mem_append.mp h with h' | h'
      · rcases List.mem_append.mp h' with h'' | h''
        · exact absurd h'' h1
        · exact h''
      · exact absurd h' h2
    · intro h
      rw [hl]
      exact List.mem_append_left _ (List.mem_append_right _ h)
  have hAL : ':' ∈ (splitVis (trim l)).2 →
      afterLast ':' l = afterLast ':' (splitVis (trim l)).2 ++ p₂ := by
    intro hmo
    conv_lhs => rw [hl]
    exact afterLast_append p₁ p₂ hmo (hnot ':' (by decide) (by decide)).2
  have hcoloneq : (rfindI ')' l < rfindI ':' l) ↔
      (rfindI ')' (splitVis (trim l)).2 < rfindI ':' (splitVis (trim l)).2) := by
    rw [rfindI_lt_iff (by decide), rfindI_lt_iff (by decide)]
    constructor
    · rintro ⟨hmem, hna⟩
      have hmo : ':' ∈ (splitVis (trim l)).2 :=
        (hmemt ':' (by decide) (by decide)).mp hmem
      refine ⟨hmo, fun ha => hna ?_⟩
      rw [hAL hmo]
      exact List.mem_append_left _ ha
    · rintro ⟨hmo, hna⟩
      refine ⟨(hmemt ':' (by decide) (by decide)).mpr hmo, fun ha => ?_⟩
      rw [hAL hmo] at ha
      rcases List.mem_append.mp ha with h | h
      · exact hna h
      · have := hp₂ _ h
        exact absurd this (by decide)
  have hcnteq : (l.count '(' = l.count ')') ↔
      ((splitVis (trim l)).2.count '(' = (splitVis (trim l)).2.count ')') := by
    rw [hcnt '(' (by decide) (by decide), hcnt ')' (by decide) (by decide)]
  have hret := parse_operation_ret l
  constructor
  · rintro ⟨hc1, hc2⟩
    have hc2' := hcoloneq.mp hc2
    have hc1' := hcnteq.mp hc1
    obtain ⟨hmo, _⟩ := (rfindI_lt_iff (by decide) _).mp hc2'
    have hmem : ':' ∈ l := (hmemt ':' (by decide) (by decide)).mpr hmo
    rw [hret, retSplit_pos _ hc1' hc2', drop_rfindI hmo, drop_rfindI hmem,
      hAL hmo, trim_append_ws hp₂]
  · intro hneg
    rw [hret]
    apply retSplit_neg
    rintro ⟨h1, h2⟩
    exact hneg ⟨hcnteq.mpr h1, hcoloneq.mpr h2⟩

theorem parse_operation_return_type_witness :
    (("+f(x: Map<K:V>): int".toList).count '('
          = ("+f(x: Map<K:V>): int".toList).count ')'
        ∧ rfindI ')' ("+f(x: Map<K:V>): int".toList)
            < rfindI ':' ("+f(x: Map<K:V>): int".toList))
      ∧ (parse_operation ("+f(x: Map<K:V>): int".toList)).2.2.2 = ("int".toList) :=
  ⟨by decide, by
    rw [(parse_operation_return_type ("+f(x: Map<K:V>): int".toList)).1 (by decide)]
    decide⟩

end UML
